import Mathlib

/-!
Verification development for the `mget` concurrent ranged-download engine.

The embedding follows `src/downloader.go` (the current core: bounded retry,
lock-guarded progress counter, a single `finish` terminal event) and, where a
claim concerns the pause machinery, the `src/unnamed/part_005` variant (the
engine with a cooperative `paused` flag and stored block-begin advancement).
Network reads are scripted as explicit lists of `Read` results; file writes are
recorded as `(offset, length)` pairs.
-/

namespace Mget

/-- Concurrency bound, `MaxThread` (downloader.go:17). -/
def MaxThread : Nat := 16

/-- Chunk buffer size in bytes, `CacheSize` (downloader.go:18). -/
def CacheSize : Nat := 1024

/-- Retry bound per block, `MaxRetries` (downloader.go:19). -/
def MaxRetries : Nat := 3

/-- A byte range of the resource (downloader.go:51-54).  `End` is inclusive
(RFC 7233); `End = -1` is the open-ended sentinel used when the size is
unknown. -/
structure Block where
  Begin : Int
  End : Int
deriving Repr, DecidableEq, Inhabited

/-- Number of bytes an inclusive range `[Begin, End]` denotes. -/
def blockLen (b : Block) : Int := b.End - b.Begin + 1

/-- Block `i` built by the planning loop (downloader.go:111-115):
`begin = blockSize*i`, `end = begin + blockSize - 1`. -/
def rawBlock (blockSize : Int) (i : Nat) : Block :=
  { Begin := blockSize * (i : Int), End := blockSize * (i : Int) + blockSize - 1 }

/-- The slice assignment `list[i].End = e` (downloader.go:117); the
out-of-range case never arises for the planner's index. -/
def modifyEnd : List Block → Nat → Int → List Block
  | [], _, _ => []
  | blk :: rest, 0, e => { blk with End := e } :: rest
  | blk :: rest, i + 1, e => blk :: modifyEnd rest i e

/-- The planning phase of `Start` (downloader.go:104-118), parameterised by the
thread count `T` (the source fixes `T = MaxThread`).  Note that it *appends* to
the existing block list `prev` and that the tail correction writes to the
constant index `T - 1` of the grown list. -/
def startPlan (prev : List Block) (S : Int) (T : Nat) : List Block :=
  if S ≤ 0 then prev ++ [{ Begin := 0, End := -1 }]
  else
    modifyEnd (prev ++ (List.range T).map (rawBlock (S / (T : Int)))) (T - 1) (S - 1)

/-- `contiguousFrom a l` checks that the blocks of `l` tile the integer line
starting at `a`: each block begins exactly where the previous one ended plus
one.  This is the ordered / gap-free / overlap-free shape of a plan. -/
def contiguousFrom : Int → List Block → Bool
  | _, [] => true
  | a, blk :: rest => decide (blk.Begin = a) && contiguousFrom (blk.End + 1) rest

/-- The first byte position after the last block of `l`, when walking the
blocks from `a`. -/
def nextAfter : Int → List Block → Int
  | a, [] => a
  | _, blk :: rest => nextAfter (blk.End + 1) rest

/-- The `Range` request header of one attempt (downloader.go:169-172): present
iff `End ≠ -1`, always built from the stored block. -/
def rangeHeaderOf (blk : Block) : Option (Int × Int) :=
  if blk.End = -1 then none else some (blk.Begin, blk.End)

/-- The error value returned by one `resp.Body.Read`: `eof` is `io.EOF`, `err`
is any other read error (write failures are folded into `err` as well: both end
the attempt with a non-nil error). -/
inductive ReadEnd
  | eof
  | err
deriving Repr, DecidableEq, Inhabited

/-- One `resp.Body.Read(buf)` outcome: `n` bytes were produced, `e` is the
returned error value (`none` means keep reading). -/
structure ReadRes where
  n : Nat
  e : Option ReadEnd
deriving Repr, DecidableEq, Inhabited

/-- How one `downloadBlock` attempt ends: `success` is a nil return, `failure`
a non-nil error return, `starved` means the scripted read list ran out while
the loop was still going (real HTTP bodies always end in EOF or an error). -/
inductive AttemptResult
  | success
  | failure
  | starved
deriving Repr, DecidableEq, Inhabited

/-- Observable effects of one `downloadBlock` attempt. `writes` are the
`File.WriteAt` calls as `(offset, length)`; `delta` is the total added to
`Status.Downloaded` (each addition is performed under the write lock);
`finBegin` is the local `begin` cursor when the attempt returned;
`truncated` records whether the oversized-chunk clip (downloader.go:185-198)
fired. -/
structure AttemptOut where
  writes : List (Int × Int)
  finBegin : Int
  delta : Int
  truncated : Bool
  result : AttemptResult
deriving Repr, DecidableEq, Inhabited

/-- The read/write loop of `downloadBlock` (downloader.go:180-221) over a
scripted list of body reads, starting from the local cursor `begin0`.
Mirrors the source exactly: clip a chunk that would overrun `endPos` to
`sizeNeeds = endPos - begin0 + 1` and force `io.EOF`; write and count a chunk
only when its (possibly clipped) size is positive; then inspect the read
error. -/
def downloadLoop (endPos : Int) : Int → List ReadRes → AttemptOut
  | begin0, [] =>
    { writes := [], finBegin := begin0, delta := 0, truncated := false, result := .starved }
  | begin0, r :: rest =>
    if endPos ≠ -1 ∧ endPos - begin0 + 1 < (r.n : Int) then
      -- oversized response: clip to sizeNeeds, treat as end-of-stream
      if 0 < endPos - begin0 + 1 then
        { writes := [(begin0, endPos - begin0 + 1)], finBegin := begin0 + (endPos - begin0 + 1),
          delta := endPos - begin0 + 1, truncated := true, result := .success }
      else
        { writes := [], finBegin := begin0, delta := 0, truncated := true, result := .success }
    else
      match r.e with
      | some .eof =>
        if 0 < (r.n : Int) then
          { writes := [(begin0, (r.n : Int))], finBegin := begin0 + (r.n : Int),
            delta := (r.n : Int), truncated := false, result := .success }
        else
          { writes := [], finBegin := begin0, delta := 0, truncated := false, result := .success }
      | some .err =>
        if 0 < (r.n : Int) then
          { writes := [(begin0, (r.n : Int))], finBegin := begin0 + (r.n : Int),
            delta := (r.n : Int), truncated := false, result := .failure }
        else
          { writes := [], finBegin := begin0, delta := 0, truncated := false, result := .failure }
      | none =>
        if 0 < (r.n : Int) then
          let o := downloadLoop endPos (begin0 + (r.n : Int)) rest
          { writes := (begin0, (r.n : Int)) :: o.writes, finBegin := o.finBegin,
            delta := (r.n : Int) + o.delta, truncated := o.truncated, result := o.result }
        else
          downloadLoop endPos begin0 rest

/-- How one worker goroutine ends: `failed` means the retry bound was
exhausted, `starved` that the scripted attempt list ran out. -/
inductive WResult
  | success
  | failed
  | starved
deriving Repr, DecidableEq, Inhabited

/-- Observable effects of one block worker (the goroutine body,
downloader.go:131-150). `errEvents` counts `emitErr` calls, `sleeps` the
backoff durations in seconds, `ranges` the Range header of each attempt,
`attempts` the number of `downloadBlock` calls. -/
structure WorkerOut where
  writes : List (Int × Int)
  delta : Int
  errEvents : Nat
  sleeps : List Nat
  ranges : List (Option (Int × Int))
  attempts : Nat
  result : WResult
deriving Repr, DecidableEq, Inhabited

/-- One block worker (downloader.go:131-150): `retries` is the current retry
counter, each element of the attempt list scripts the body reads of one
`downloadBlock` call.  The stored block is never mutated by the core
(`downloadBlock` copies `Begin` into a local), so every retry restarts from
`blk.Begin` and resends the same Range header. -/
def workerLoop (blk : Block) : Nat → List (List ReadRes) → WorkerOut
  | _, [] =>
    { writes := [], delta := 0, errEvents := 0, sleeps := [], ranges := [],
      attempts := 0, result := .starved }
  | retries, s :: rest =>
    if retries < MaxRetries then
      let a := downloadLoop blk.End blk.Begin s
      match a.result with
      | .starved =>
        { writes := a.writes, delta := a.delta, errEvents := 0, sleeps := [],
          ranges := [rangeHeaderOf blk], attempts := 1, result := .starved }
      | .success =>
        { writes := a.writes, delta := a.delta, errEvents := 0, sleeps := [],
          ranges := [rangeHeaderOf blk], attempts := 1, result := .success }
      | .failure =>
        if MaxRetries ≤ retries + 1 then
          { writes := a.writes, delta := a.delta, errEvents := 1, sleeps := [],
            ranges := [rangeHeaderOf blk], attempts := 1, result := .failed }
        else
          let w := workerLoop blk (retries + 1) rest
          { writes := a.writes ++ w.writes, delta := a.delta + w.delta,
            errEvents := 1 + w.errEvents, sleeps := (retries + 1) :: w.sleeps,
            ranges := rangeHeaderOf blk :: w.ranges, attempts := 1 + w.attempts,
            result := w.result }
    else
      { writes := [], delta := 0, errEvents := 0, sleeps := [], ranges := [],
        attempts := 0, result := .failed }

/-- Lifecycle events of the engine. `blockErr` is the per-block error callback
(`onError`); the others are task-level. -/
inductive Event
  | start
  | finish
  | pause
  | failed
  | blockErr
deriving Repr, DecidableEq, Inhabited

/-- Whether an event is one of the terminal trio of the spec. -/
def isTerminal : Event → Bool
  | .finish => true
  | .pause => true
  | .failed => true
  | _ => false

/-- Result of one `download()` cycle (downloader.go:125-156). -/
structure RunOut where
  workers : List WorkerOut
  terminal : Event
deriving Repr, DecidableEq, Inhabited

/-- `download()` (downloader.go:125-156): spawn one worker per block, join them
all on the WaitGroup barrier, then emit `onFinish` — unconditionally `finish`,
whatever the workers' results.  `streams` scripts, per block, the body reads of
each attempt. -/
def downloadRun (blocks : List Block) (streams : List (List (List ReadRes))) : RunOut :=
  { workers := (List.range blocks.length).map fun i =>
      workerLoop (blocks.getD i default) 0 (streams.getD i []),
    terminal := Event.finish }

/-- All file writes of a cycle, in per-worker order. -/
def allWrites (r : RunOut) : List (Int × Int) := (r.workers.map WorkerOut.writes).flatten

/-- The emitted events of one cycle: the per-block error events (in any order;
only their count matters here), then the terminal event emitted after the
barrier. -/
def eventTrace (blocks : List Block) (streams : List (List (List ReadRes))) : List Event :=
  ((downloadRun blocks streams).workers.map fun w =>
    List.replicate w.errEvents Event.blockErr).flatten
    ++ [(downloadRun blocks streams).terminal]

/-- A well-behaved body for the range `[b, endPos]`: every chunk fits within
the remaining need (so the clip never fires) and the last read returns
`io.EOF` exactly at the range end. -/
def servesB (endPos : Int) : Int → List ReadRes → Bool
  | _, [] => false
  | b, [r] => decide ((r.n : Int) = endPos - b + 1) && decide (r.e = some ReadEnd.eof)
  | b, r :: r2 :: rest =>
    decide (r.e = (none : Option ReadEnd)) && decide ((r.n : Int) ≤ endPos - b + 1)
      && servesB endPos (b + (r.n : Int)) (r2 :: rest)

/-- Sum of the lengths of a list of writes. -/
def sumWrites (ws : List (Int × Int)) : Int := (ws.map Prod.snd).sum

/-! ### The pause/resume variant (src/unnamed/part_005)

This variant keeps a cooperative `paused` flag consulted at the top of the
worker read loop, and it does advance the stored `BlockList[id].Begin` after
every write. -/

/-- The downloader state relevant to pausing (part_005:63). -/
structure DLState where
  paused : Bool
deriving Repr, DecidableEq, Inhabited

/-- `Pause()` (part_005:252-254): set the cooperative cancellation flag. -/
def Pause (d : DLState) : DLState := { d with paused := true }

/-- Inputs of one iteration of part_005's `downloadBlock` loop: the `paused`
flag value observed at the top of the loop, and the body read performed when
the flag was not set. -/
structure Step5 where
  paused : Bool
  read : ReadRes
deriving Repr, DecidableEq, Inhabited

/-- How one part_005 attempt ends: `pausedHalt` is the nil return taken when
the flag was observed set. -/
inductive R5
  | pausedHalt
  | success
  | failure
  | starved
deriving Repr, DecidableEq, Inhabited

/-- Observable effects of one part_005 `downloadBlock` attempt.  `storedBegin`
is the value of `f.BlockList[id].Begin` when the attempt returned; `reads` the
number of body chunks fetched. -/
structure Out5 where
  storedBegin : Int
  writes : List (Int × Int)
  delta : Int
  reads : Nat
  result : R5
deriving Repr, DecidableEq, Inhabited

/-- `downloadBlock` of part_005 (lines 167-208): check `paused` before each
read and return nil immediately if set; `needSize` and the write offset use
the stored begin `sb`, which is advanced by `bufSize` after every write
(line 199; the write and the counter update are unguarded in this variant). -/
def downloadBlock5 (endPos : Int) : Int → List Step5 → Out5
  | sb, [] => { storedBegin := sb, writes := [], delta := 0, reads := 0, result := .starved }
  | sb, st :: rest =>
    if st.paused then
      { storedBegin := sb, writes := [], delta := 0, reads := 0, result := .pausedHalt }
    else
      if endPos ≠ -1 ∧ endPos + 1 - sb < (st.read.n : Int) then
        -- oversized response: clip to needSize and force io.EOF
        { storedBegin := sb + (endPos + 1 - sb), writes := [(sb, endPos + 1 - sb)],
          delta := endPos + 1 - sb, reads := 1, result := .success }
      else
        match st.read.e with
        | some .eof =>
          { storedBegin := sb + (st.read.n : Int), writes := [(sb, (st.read.n : Int))],
            delta := (st.read.n : Int), reads := 1, result := .success }
        | some .err =>
          { storedBegin := sb + (st.read.n : Int), writes := [(sb, (st.read.n : Int))],
            delta := (st.read.n : Int), reads := 1, result := .failure }
        | none =>
          let o := downloadBlock5 endPos (sb + (st.read.n : Int)) rest
          { storedBegin := o.storedBegin, writes := (sb, (st.read.n : Int)) :: o.writes,
            delta := (st.read.n : Int) + o.delta, reads := 1 + o.reads, result := o.result }

/-! ### Construction (NewFileDownloader) -/

/-- Outcome of the `http.Head(url)` call: either the request itself fails, or
it yields a response whose `ContentLength` is the given value (Go reports a
missing Content-Length as `-1`). -/
inductive HeadResult
  | failed
  | ok (contentLength : Int)
deriving Repr, DecidableEq

/-- A constructed download task (the fields of `FileDownloader` that
construction populates, downloader.go:89-95). -/
structure FD where
  url : String
  size : Int
  downloaded : Int
deriving Repr, DecidableEq

/-- Whether the constructor issues the HEAD request (downloader.go:74-83):
only when the caller-supplied size is non-positive. -/
def headRequested (size : Int) : Bool := decide (size ≤ 0)

/-- `NewFileDownloader` (downloader.go:73-98): for `size ≤ 0` discover the
size via HEAD (propagating a HEAD failure); then reject a non-positive size,
else build the task with `Downloaded = 0`. -/
def NewFileDownloader (url : String) (head : HeadResult) (size : Int) :
    Except String FD :=
  match (if size ≤ 0 then
          match head with
          | .failed => none
          | .ok cl => some cl
         else some size) with
  | none => .error "head request failed"
  | some s =>
    if s ≤ 0 then .error "HTTP HEAD response without Content-Length"
    else .ok { url := url, size := s, downloaded := 0 }

/-! ## Generic lemmas about contiguous block lists -/

theorem nextAfter_append (a : Int) (xs ys : List Block) :
    nextAfter a (xs ++ ys) = nextAfter (nextAfter a xs) ys := by
  induction xs generalizing a with
  | nil => rfl
  | cons b rest ih => simp [nextAfter, ih]

theorem contiguousFrom_append (a : Int) (xs ys : List Block) :
    contiguousFrom a (xs ++ ys)
      = (contiguousFrom a xs && contiguousFrom (nextAfter a xs) ys) := by
  induction xs generalizing a with
  | nil => simp [contiguousFrom, nextAfter]
  | cons b rest ih => simp [contiguousFrom, nextAfter, ih, Bool.and_assoc]

theorem sum_blockLen_of_contiguous (l : List Block) :
    ∀ a : Int, contiguousFrom a l = true → (l.map blockLen).sum = nextAfter a l - a := by
  induction l with
  | nil => intro a _; simp [nextAfter]
  | cons b rest ih =>
    intro a h
    simp only [contiguousFrom, Bool.and_eq_true, decide_eq_true_eq] at h
    obtain ⟨h1, h2⟩ := h
    simp only [List.map_cons, List.sum_cons, nextAfter, ih _ h2, blockLen, h1]
    ring

theorem le_nextAfter (l : List Block) :
    ∀ a : Int, contiguousFrom a l = true →
      (∀ blk ∈ l, blk.Begin ≤ blk.End + 1) → a ≤ nextAfter a l := by
  induction l with
  | nil => intro a _ _; exact le_refl a
  | cons b rest ih =>
    intro a h hn
    simp only [contiguousFrom, Bool.and_eq_true, decide_eq_true_eq] at h
    obtain ⟨h1, h2⟩ := h
    have hb : b.Begin ≤ b.End + 1 := hn b (List.mem_cons_self b rest)
    have := ih (b.End + 1) h2 (fun blk hm => hn blk (List.mem_cons_of_mem b hm))
    simp only [nextAfter]
    omega

theorem begin_bounds_of_contiguous (l : List Block) :
    ∀ a : Int, contiguousFrom a l = true →
      (∀ blk ∈ l, blk.Begin ≤ blk.End + 1) →
      ∀ blk ∈ l, a ≤ blk.Begin ∧ blk.End + 1 ≤ nextAfter a l := by
  induction l with
  | nil => intro a _ _ blk hm; cases hm
  | cons b rest ih =>
    intro a h hn blk hm
    simp only [contiguousFrom, Bool.and_eq_true, decide_eq_true_eq] at h
    obtain ⟨h1, h2⟩ := h
    have hrest : ∀ blk ∈ rest, blk.Begin ≤ blk.End + 1 :=
      fun blk hm => hn blk (List.mem_cons_of_mem b hm)
    rcases List.mem_cons.mp hm with rfl | hm'
    · refine ⟨le_of_eq h1.symm, ?_⟩
      simpa [nextAfter] using le_nextAfter rest (blk.End + 1) h2 hrest
    · have hb : b.Begin ≤ b.End + 1 := hn b (List.mem_cons_self b rest)
      have := ih (b.End + 1) h2 hrest blk hm'
      simp only [nextAfter]
      omega

theorem pairwise_of_contiguous (l : List Block) :
    ∀ a : Int, contiguousFrom a l = true →
      (∀ blk ∈ l, blk.Begin ≤ blk.End + 1) →
      l.Pairwise (fun p q => p.End < q.Begin) := by
  induction l with
  | nil => intro _ _ _; exact List.Pairwise.nil
  | cons b rest ih =>
    intro a h hn
    simp only [contiguousFrom, Bool.and_eq_true, decide_eq_true_eq] at h
    obtain ⟨h1, h2⟩ := h
    have hrest : ∀ blk ∈ rest, blk.Begin ≤ blk.End + 1 :=
      fun blk hm => hn blk (List.mem_cons_of_mem b hm)
    refine List.Pairwise.cons ?_ (ih (b.End + 1) h2 hrest)
    intro q hq
    have := (begin_bounds_of_contiguous rest (b.End + 1) h2 hrest q hq).1
    omega

theorem cover_of_contiguous (l : List Block) :
    ∀ a : Int, contiguousFrom a l = true →
      (∀ blk ∈ l, blk.Begin ≤ blk.End + 1) →
      ∀ x : Int, (∃ blk ∈ l, blk.Begin ≤ x ∧ x ≤ blk.End) ↔
        (a ≤ x ∧ x < nextAfter a l) := by
  induction l with
  | nil =>
    intro a _ _ x
    simp only [List.not_mem_nil, false_and, exists_false, nextAfter]
    constructor
    · intro h; exact absurd h (by simp)
    · intro h; omega
  | cons b rest ih =>
    intro a h hn x
    simp only [contiguousFrom, Bool.and_eq_true, decide_eq_true_eq] at h
    obtain ⟨h1, h2⟩ := h
    have hrest : ∀ blk ∈ rest, blk.Begin ≤ blk.End + 1 :=
      fun blk hm => hn blk (List.mem_cons_of_mem b hm)
    have hb : b.Begin ≤ b.End + 1 := hn b (List.mem_cons_self b rest)
    simp only [nextAfter]
    constructor
    · rintro ⟨blk, hm, hx1, hx2⟩
      rcases List.mem_cons.mp hm with rfl | hm'
      · have := le_nextAfter rest (blk.End + 1) h2 hrest
        omega
      · have := ((ih (b.End + 1) h2 hrest x).mp ⟨blk, hm', hx1, hx2⟩)
        omega
    · rintro ⟨hx1, hx2⟩
      by_cases hxb : x ≤ b.End
      · exact ⟨b, List.mem_cons_self b rest, by omega, hxb⟩
      · have := (ih (b.End + 1) h2 hrest x).mpr ⟨by omega, hx2⟩
        obtain ⟨blk, hm', hb1, hb2⟩ := this
        exact ⟨blk, List.mem_cons_of_mem b hm', hb1, hb2⟩

/-! ## Lemmas about the planner -/

theorem contiguous_rawBlocks (bs : Int) :
    ∀ (m k : Nat), contiguousFrom (bs * (k : Int)) ((List.range' k m).map (rawBlock bs)) = true := by
  intro m
  induction m with
  | zero => intro k; rfl
  | succ m ih =>
    intro k
    have hk := ih (k + 1)
    have harith : bs * ((k + 1 : Nat) : Int) = (rawBlock bs k).End + 1 := by
      simp only [rawBlock]
      push_cast
      ring
    simp only [List.range', List.map_cons, contiguousFrom, Bool.and_eq_true, decide_eq_true_eq]
    refine ⟨rfl, ?_⟩
    rw [← harith]
    exact hk

theorem nextAfter_rawBlocks (bs : Int) :
    ∀ (m k : Nat), nextAfter (bs * (k : Int)) ((List.range' k m).map (rawBlock bs))
      = bs * ((k : Int) + (m : Int)) := by
  intro m
  induction m with
  | zero => intro k; simp [nextAfter]
  | succ m ih =>
    intro k
    have hk := ih (k + 1)
    have harith : (rawBlock bs k).End + 1 = bs * ((k + 1 : Nat) : Int) := by
      simp only [rawBlock]
      push_cast
      ring
    simp only [List.range', List.map_cons, nextAfter]
    rw [harith, hk]
    push_cast
    ring

theorem modifyEnd_append_len :
    ∀ (xs : List Block) (y : Block) (ys : List Block) (e : Int),
      modifyEnd (xs ++ y :: ys) xs.length e = xs ++ ({ y with End := e } :: ys) := by
  intro xs
  induction xs with
  | nil => intro y ys e; rfl
  | cons x rest ih => intro y ys e; simp [modifyEnd, ih]

theorem modifyEnd_append_lt :
    ∀ (xs ys : List Block) (i : Nat) (e : Int), i < xs.length →
      modifyEnd (xs ++ ys) i e = modifyEnd xs i e ++ ys := by
  intro xs
  induction xs with
  | nil => intro ys i e h; simp at h
  | cons x rest ih =>
    intro ys i e h
    cases i with
    | zero => rfl
    | succ i =>
      have h' : i < rest.length := by simpa using Nat.lt_of_succ_lt_succ h
      show x :: modifyEnd (rest ++ ys) i e = x :: (modifyEnd rest i e ++ ys)
      rw [ih ys i e h']

/-- Variant of `modifyEnd_append_len` with the index given as an equation, for
rewriting. -/
theorem modifyEnd_append_idx (xs : List Block) (y : Block) (ys : List Block) (e : Int)
    (i : Nat) (hi : i = xs.length) :
    modifyEnd (xs ++ y :: ys) i e = xs ++ ({ y with End := e } :: ys) := by
  subst hi
  exact modifyEnd_append_len xs y ys e

theorem startPlan_decomp (S : Int) (T : Nat) (hS : 0 < S) (hT : 0 < T) :
    startPlan [] S T
      = (List.range (T - 1)).map (rawBlock (S / (T : Int)))
        ++ [{ Begin := (S / (T : Int)) * ((T - 1 : Nat) : Int), End := S - 1 }] := by
  unfold startPlan
  rw [if_neg (by omega)]
  obtain ⟨T', rfl⟩ : ∃ T', T = T' + 1 := ⟨T - 1, (Nat.succ_pred_eq_of_pos hT).symm⟩
  simp only [Nat.add_sub_cancel, List.nil_append, List.range_succ, List.map_append,
    List.map_singleton]
  rw [modifyEnd_append_idx _ _ _ _ _ (by simp)]
  simp [rawBlock]

theorem plan_blockSize_nonneg (S : Int) (T : Nat) (hS : 0 < S) (hT : 0 < T) :
    0 ≤ S / (T : Int) := by
  have hTpos : (0 : Int) < (T : Int) := by exact_mod_cast hT
  exact Int.ediv_nonneg hS.le hTpos.le

theorem plan_tail_begin_le (S : Int) (T : Nat) (hS : 0 < S) (hT : 0 < T) :
    (S / (T : Int)) * ((T - 1 : Nat) : Int) ≤ S := by
  have hTpos : (0 : Int) < (T : Int) := by exact_mod_cast hT
  have hb0 : 0 ≤ S / (T : Int) := plan_blockSize_nonneg S T hS hT
  have hdm := Int.ediv_add_emod S (T : Int)
  have hm : 0 ≤ S % (T : Int) := Int.emod_nonneg S (by omega)
  have hmul : (T : Int) * (S / (T : Int)) ≤ S := by linarith
  have hcast : ((T - 1 : Nat) : Int) = (T : Int) - 1 := by
    have h1 : (1 : Nat) ≤ T := hT
    push_cast [h1]
    ring
  rw [hcast]
  have hsplit : S / (T : Int) * ((T : Int) - 1) = (T : Int) * (S / (T : Int)) - S / (T : Int) := by
    ring
  rw [hsplit]
  linarith

theorem startPlan_length (S : Int) (T : Nat) (hS : 0 < S) (hT : 0 < T) :
    (startPlan [] S T).length = T := by
  rw [startPlan_decomp S T hS hT]
  simp
  omega

theorem startPlan_nonneg (S : Int) (T : Nat) (hS : 0 < S) (hT : 0 < T) :
    ∀ blk ∈ startPlan [] S T, blk.Begin ≤ blk.End + 1 := by
  rw [startPlan_decomp S T hS hT]
  intro blk hm
  rcases List.mem_append.mp hm with hm' | hm'
  · obtain ⟨i, _, rfl⟩ := List.mem_map.mp hm'
    have := plan_blockSize_nonneg S T hS hT
    simp only [rawBlock]
    omega
  · simp only [List.mem_singleton] at hm'
    subst hm'
    have := plan_tail_begin_le S T hS hT
    simpa using this

theorem startPlan_contiguous (S : Int) (T : Nat) (hS : 0 < S) (hT : 0 < T) :
    contiguousFrom 0 (startPlan [] S T) = true := by
  rw [startPlan_decomp S T hS hT, contiguousFrom_append, List.range_eq_range']
  have hraw := contiguous_rawBlocks (S / (T : Int)) (T - 1) 0
  have hnext := nextAfter_rawBlocks (S / (T : Int)) (T - 1) 0
  simp only [Nat.cast_zero, mul_zero, zero_add] at hraw hnext
  rw [hraw, hnext]
  simp [contiguousFrom]

theorem startPlan_nextAfter (S : Int) (T : Nat) (hS : 0 < S) (hT : 0 < T) :
    nextAfter 0 (startPlan [] S T) = S := by
  rw [startPlan_decomp S T hS hT, nextAfter_append, List.range_eq_range']
  have hnext := nextAfter_rawBlocks (S / (T : Int)) (T - 1) 0
  simp only [Nat.cast_zero, mul_zero, zero_add] at hnext
  rw [hnext]
  simp [nextAfter]

theorem startPlan_sum (S : Int) (T : Nat) (hS : 0 < S) (hT : 0 < T) :
    ((startPlan [] S T).map blockLen).sum = S := by
  have := sum_blockLen_of_contiguous (startPlan [] S T) 0 (startPlan_contiguous S T hS hT)
  rw [startPlan_nextAfter S T hS hT] at this
  simpa using this

/-! ## Claim C1 -/

/-- Claim C1 counterexample: with `S = 10 < MaxThread = 16` the planner emits
the sentinel block `{0, -1}`, and the worker does *not* skip it or treat it as
a no-op — its Range header is absent (an open-ended full-body request) and a
body of 10 bytes is written and counted in full.  This refutes the clause of
C1 that empty blocks "must be skipped or treated as no-ops by the worker". -/
theorem planner_sentinel_not_noop :
    (startPlan [] 10 MaxThread).getD 0 default = { Begin := 0, End := -1 }
    ∧ rangeHeaderOf { Begin := 0, End := -1 } = none
    ∧ (downloadLoop (-1) 0 [⟨10, some ReadEnd.eof⟩]).writes = [(0, 10)]
    ∧ (downloadLoop (-1) 0 [⟨10, some ReadEnd.eof⟩]).delta = 10 := by
  decide

/-- Claim C1 (amended): for every total size `S > 0` and thread count `T > 0`
the planner's list partitions `[0, S-1]` exactly — it has `T` blocks, they
tile the line from 0 (ordered, no gaps, no overlaps), every block has
non-negative length, the lengths sum to `S`, the blocks are pairwise disjoint,
and the covered positions are exactly `[0, S-1]`.  For `S < T` the surplus
blocks are `{0, -1}`: the partition still holds (they are empty intervals),
but the worker does not skip them — `End = -1` collides with the open-ended
sentinel, so such a block is requested without a Range header instead of
being a no-op. -/
theorem planner_partition (S : Int) (T : Nat) (hS : 0 < S) (hT : 0 < T) :
    (startPlan [] S T).length = T
    ∧ contiguousFrom 0 (startPlan [] S T) = true
    ∧ (∀ blk ∈ startPlan [] S T, 0 ≤ blockLen blk)
    ∧ ((startPlan [] S T).map blockLen).sum = S
    ∧ (startPlan [] S T).Pairwise (fun p q => p.End < q.Begin)
    ∧ (∀ x : Int, (∃ blk ∈ startPlan [] S T, blk.Begin ≤ x ∧ x ≤ blk.End)
        ↔ 0 ≤ x ∧ x ≤ S - 1)
    ∧ (S < (T : Int) → ∀ blk ∈ (startPlan [] S T).dropLast,
        blk = { Begin := 0, End := -1 } ∧ rangeHeaderOf blk = none) := by
  have hcontig := startPlan_contiguous S T hS hT
  have hnonneg := startPlan_nonneg S T hS hT
  have hnext := startPlan_nextAfter S T hS hT
  refine ⟨startPlan_length S T hS hT, hcontig, ?_, startPlan_sum S T hS hT, ?_, ?_, ?_⟩
  · intro blk hm
    have := hnonneg blk hm
    simp only [blockLen]
    omega
  · exact pairwise_of_contiguous _ 0 hcontig hnonneg
  · intro x
    have := cover_of_contiguous (startPlan [] S T) 0 hcontig hnonneg x
    rw [hnext] at this
    rw [this]
    omega
  · intro hST blk hm
    have hz : S / (T : Int) = 0 := Int.ediv_eq_zero_of_lt hS.le hST
    rw [startPlan_decomp S T hS hT, List.dropLast_concat] at hm
    obtain ⟨i, _, rfl⟩ := List.mem_map.mp hm
    rw [hz]
    constructor
    · simp [rawBlock]
    · simp [rawBlock, rangeHeaderOf]

/-- Claim C1 witness: the amended partition theorem at the spec's own test
scenario `S = 1000`, `T = 4`. -/
theorem planner_partition_witness :
    (startPlan [] 1000 4).length = 4
    ∧ ((startPlan [] 1000 4).map blockLen).sum = 1000 := by
  have h := planner_partition 1000 4 (by decide) (by decide)
  exact ⟨h.1, h.2.2.2.1⟩

/-! ## Step lemmas for the worker read loop -/

theorem downloadLoop_cons_trunc (endPos b : Int) (r : ReadRes) (rest : List ReadRes)
    (hc : endPos ≠ -1 ∧ endPos - b + 1 < (r.n : Int)) :
    downloadLoop endPos b (r :: rest)
      = if 0 < endPos - b + 1 then
          { writes := [(b, endPos - b + 1)], finBegin := b + (endPos - b + 1),
            delta := endPos - b + 1, truncated := true, result := .success }
        else
          { writes := [], finBegin := b, delta := 0, truncated := true, result := .success } := by
  simp only [downloadLoop, if_pos hc]

theorem downloadLoop_cons_eof (endPos b : Int) (n : Nat) (rest : List ReadRes)
    (hc : ¬(endPos ≠ -1 ∧ endPos - b + 1 < (n : Int))) :
    downloadLoop endPos b (⟨n, some .eof⟩ :: rest)
      = if 0 < (n : Int) then
          { writes := [(b, (n : Int))], finBegin := b + (n : Int), delta := (n : Int),
            truncated := false, result := .success }
        else
          { writes := [], finBegin := b, delta := 0, truncated := false, result := .success } := by
  simp only [downloadLoop, if_neg hc]

theorem downloadLoop_cons_err (endPos b : Int) (n : Nat) (rest : List ReadRes)
    (hc : ¬(endPos ≠ -1 ∧ endPos - b + 1 < (n : Int))) :
    downloadLoop endPos b (⟨n, some .err⟩ :: rest)
      = if 0 < (n : Int) then
          { writes := [(b, (n : Int))], finBegin := b + (n : Int), delta := (n : Int),
            truncated := false, result := .failure }
        else
          { writes := [], finBegin := b, delta := 0, truncated := false, result := .failure } := by
  simp only [downloadLoop, if_neg hc]

theorem downloadLoop_cons_none (endPos b : Int) (n : Nat) (rest : List ReadRes)
    (hc : ¬(endPos ≠ -1 ∧ endPos - b + 1 < (n : Int))) :
    downloadLoop endPos b (⟨n, none⟩ :: rest)
      = if 0 < (n : Int) then
          { writes := (b, (n : Int)) :: (downloadLoop endPos (b + (n : Int)) rest).writes,
            finBegin := (downloadLoop endPos (b + (n : Int)) rest).finBegin,
            delta := (n : Int) + (downloadLoop endPos (b + (n : Int)) rest).delta,
            truncated := (downloadLoop endPos (b + (n : Int)) rest).truncated,
            result := (downloadLoop endPos (b + (n : Int)) rest).result }
        else downloadLoop endPos b rest := by
  simp only [downloadLoop, if_neg hc]

/-- Basic facts about one attempt: every recorded write has positive length,
no write reaches past `endPos` when the block is ranged, a clipped attempt
always ends in success, and the amount added to the shared counter equals the
total bytes written. -/
theorem downloadLoop_facts (endPos : Int) :
    ∀ (s : List ReadRes) (b : Int),
      (∀ w ∈ (downloadLoop endPos b s).writes, 0 < w.2)
      ∧ (endPos ≠ -1 → ∀ w ∈ (downloadLoop endPos b s).writes, w.1 + w.2 - 1 ≤ endPos)
      ∧ ((downloadLoop endPos b s).truncated = true →
          (downloadLoop endPos b s).result = .success)
      ∧ (downloadLoop endPos b s).delta = sumWrites (downloadLoop endPos b s).writes := by
  intro s
  induction s with
  | nil =>
    intro b
    refine ⟨?_, ?_, ?_, ?_⟩ <;> simp [downloadLoop, sumWrites]
  | cons r rest ih =>
    intro b
    obtain ⟨n, e⟩ := r
    by_cases hc : endPos ≠ -1 ∧ endPos - b + 1 < (n : Int)
    · rw [downloadLoop_cons_trunc endPos b ⟨n, e⟩ rest hc]
      by_cases hp : 0 < endPos - b + 1
      · rw [if_pos hp]
        refine ⟨?_, ?_, ?_, ?_⟩
        · intro w hw; simp at hw; subst hw; simpa using hp
        · intro _ w hw; simp at hw; subst hw; simp; omega
        · intro _; rfl
        · simp [sumWrites]
      · rw [if_neg hp]
        refine ⟨?_, ?_, ?_, ?_⟩ <;> simp [sumWrites]
    · cases e with
      | none =>
        rw [downloadLoop_cons_none endPos b n rest hc]
        by_cases hp : 0 < (n : Int)
        · rw [if_pos hp]
          obtain ⟨ih1, ih2, ih3, ih4⟩ := ih (b + (n : Int))
          refine ⟨?_, ?_, ?_, ?_⟩
          · intro w hw
            rcases List.mem_cons.mp hw with rfl | hw'
            · simpa using hp
            · exact ih1 w hw'
          · intro hne w hw
            rcases List.mem_cons.mp hw with rfl | hw'
            · have hle : (n : Int) ≤ endPos - b + 1 := by
                push_neg at hc
                have := hc hne
                omega
              simp
              omega
            · exact ih2 hne w hw'
          · intro ht; exact ih3 ht
          · simp only [sumWrites, List.map_cons, List.sum_cons]
            rw [ih4]
            rfl
        · rw [if_neg hp]
          exact ih b
      | some ee =>
        cases ee with
        | eof =>
          rw [downloadLoop_cons_eof endPos b n rest hc]
          by_cases hp : 0 < (n : Int)
          · rw [if_pos hp]
            refine ⟨?_, ?_, ?_, ?_⟩
            · intro w hw; simp at hw; subst hw; simpa using hp
            · intro hne w hw
              simp at hw; subst hw
              have hle : (n : Int) ≤ endPos - b + 1 := by
                push_neg at hc
                have := hc hne
                omega
              simp
              omega
            · intro ht; cases ht
            · simp [sumWrites]
          · rw [if_neg hp]
            refine ⟨?_, ?_, ?_, ?_⟩ <;> simp [sumWrites]
        | err =>
          rw [downloadLoop_cons_err endPos b n rest hc]
          by_cases hp : 0 < (n : Int)
          · rw [if_pos hp]
            refine ⟨?_, ?_, ?_, ?_⟩
            · intro w hw; simp at hw; subst hw; simpa using hp
            · intro hne w hw
              simp at hw; subst hw
              have hle : (n : Int) ≤ endPos - b + 1 := by
                push_neg at hc
                have := hc hne
                omega
              simp
              omega
            · intro ht; cases ht
            · simp [sumWrites]
          · rw [if_neg hp]
            refine ⟨?_, ?_, ?_, ?_⟩ <;> simp [sumWrites]

/-- A well-behaved body yields a successful attempt that downloads exactly the
remaining need of the range. -/
theorem servesB_sound (endPos : Int) :
    ∀ (s : List ReadRes) (b : Int), servesB endPos b s = true →
      (downloadLoop endPos b s).result = .success
      ∧ (downloadLoop endPos b s).delta = endPos - b + 1 := by
  intro s
  induction s with
  | nil => intro b h; simp [servesB] at h
  | cons r rest ih =>
    intro b h
    obtain ⟨n, e⟩ := r
    cases rest with
    | nil =>
      simp only [servesB, Bool.and_eq_true, decide_eq_true_eq] at h
      obtain ⟨h1, h2⟩ := h
      subst h2
      have hc : ¬(endPos ≠ -1 ∧ endPos - b + 1 < (n : Int)) := by
        rintro ⟨-, hlt⟩
        omega
      rw [downloadLoop_cons_eof endPos b n [] hc]
      by_cases hp : 0 < (n : Int)
      · rw [if_pos hp]
        exact ⟨rfl, by simpa using h1⟩
      · rw [if_neg hp]
        refine ⟨rfl, ?_⟩
        have : (n : Int) = 0 := by omega
        dsimp only
        omega
    | cons r2 rest2 =>
      simp only [servesB, Bool.and_eq_true, decide_eq_true_eq] at h
      obtain ⟨⟨he, hle⟩, hrest⟩ := h
      subst he
      have hc : ¬(endPos ≠ -1 ∧ endPos - b + 1 < (n : Int)) := by
        rintro ⟨-, hlt⟩
        omega
      rw [downloadLoop_cons_none endPos b n (r2 :: rest2) hc]
      by_cases hp : 0 < (n : Int)
      · rw [if_pos hp]
        have hr := ih (b + (n : Int)) hrest
        refine ⟨by simpa using hr.1, ?_⟩
        have hd := hr.2
        simp only
        omega
      · rw [if_neg hp]
        have hn0 : (n : Int) = 0 := by omega
        have hb : b + (n : Int) = b := by omega
        rw [hb] at hrest
        exact ih b hrest

/-! ## Lemmas about the retry wrapper -/

theorem workerLoop_cons_ok (blk : Block) (s : List ReadRes) (rest : List (List ReadRes))
    (retries : Nat) (hg : retries < MaxRetries)
    (hres : (downloadLoop blk.End blk.Begin s).result = .success) :
    workerLoop blk retries (s :: rest)
      = { writes := (downloadLoop blk.End blk.Begin s).writes,
          delta := (downloadLoop blk.End blk.Begin s).delta, errEvents := 0, sleeps := [],
          ranges := [rangeHeaderOf blk], attempts := 1, result := .success } := by
  rw [workerLoop, if_pos hg]
  simp only [hres]

theorem workerLoop_cons_starved (blk : Block) (s : List ReadRes) (rest : List (List ReadRes))
    (retries : Nat) (hg : retries < MaxRetries)
    (hres : (downloadLoop blk.End blk.Begin s).result = .starved) :
    workerLoop blk retries (s :: rest)
      = { writes := (downloadLoop blk.End blk.Begin s).writes,
          delta := (downloadLoop blk.End blk.Begin s).delta, errEvents := 0, sleeps := [],
          ranges := [rangeHeaderOf blk], attempts := 1, result := .starved } := by
  rw [workerLoop, if_pos hg]
  simp only [hres]

theorem workerLoop_cons_last_fail (blk : Block) (s : List ReadRes) (rest : List (List ReadRes))
    (retries : Nat) (hg : retries < MaxRetries) (hx : MaxRetries ≤ retries + 1)
    (hres : (downloadLoop blk.End blk.Begin s).result = .failure) :
    workerLoop blk retries (s :: rest)
      = { writes := (downloadLoop blk.End blk.Begin s).writes,
          delta := (downloadLoop blk.End blk.Begin s).delta, errEvents := 1, sleeps := [],
          ranges := [rangeHeaderOf blk], attempts := 1, result := .failed } := by
  rw [workerLoop, if_pos hg]
  simp only [hres, if_pos hx]

theorem workerLoop_cons_retry (blk : Block) (s : List ReadRes) (rest : List (List ReadRes))
    (retries : Nat) (hg : retries < MaxRetries) (hx : ¬ MaxRetries ≤ retries + 1)
    (hres : (downloadLoop blk.End blk.Begin s).result = .failure) :
    workerLoop blk retries (s :: rest)
      = { writes := (downloadLoop blk.End blk.Begin s).writes
            ++ (workerLoop blk (retries + 1) rest).writes,
          delta := (downloadLoop blk.End blk.Begin s).delta
            + (workerLoop blk (retries + 1) rest).delta,
          errEvents := 1 + (workerLoop blk (retries + 1) rest).errEvents,
          sleeps := (retries + 1) :: (workerLoop blk (retries + 1) rest).sleeps,
          ranges := rangeHeaderOf blk :: (workerLoop blk (retries + 1) rest).ranges,
          attempts := 1 + (workerLoop blk (retries + 1) rest).attempts,
          result := (workerLoop blk (retries + 1) rest).result } := by
  rw [workerLoop, if_pos hg]
  simp only [hres, if_neg hx]

/-- A worker performs at most `MaxRetries - retries` further attempts. -/
theorem workerLoop_attempts_le (blk : Block) :
    ∀ (streams : List (List ReadRes)) (retries : Nat),
      (workerLoop blk retries streams).attempts ≤ MaxRetries - retries := by
  intro streams
  induction streams with
  | nil => intro retries; simp [workerLoop]
  | cons s rest ih =>
    intro retries
    by_cases hg : retries < MaxRetries
    · cases hres : (downloadLoop blk.End blk.Begin s).result with
      | starved =>
        rw [workerLoop_cons_starved blk s rest retries hg hres]
        dsimp only
        omega
      | success =>
        rw [workerLoop_cons_ok blk s rest retries hg hres]
        dsimp only
        omega
      | failure =>
        by_cases hx : MaxRetries ≤ retries + 1
        · rw [workerLoop_cons_last_fail blk s rest retries hg hx hres]
          dsimp only
          omega
        · rw [workerLoop_cons_retry blk s rest retries hg hx hres]
          have := ih (retries + 1)
          dsimp only
          omega
    · rw [workerLoop, if_neg hg]
      dsimp only
      omega

/-- From entry counter `retries`, the backoff sleeps form the arithmetic ramp
`retries + 1, retries + 2, ...`: the k-th sleep lasts as many seconds as the
attempt count it follows. -/
theorem workerLoop_sleeps_ramp (blk : Block) :
    ∀ (streams : List (List ReadRes)) (retries : Nat),
      (workerLoop blk retries streams).sleeps
        = List.range' (retries + 1) (workerLoop blk retries streams).sleeps.length := by
  intro streams
  induction streams with
  | nil => intro retries; simp [workerLoop]
  | cons s rest ih =>
    intro retries
    by_cases hg : retries < MaxRetries
    · cases hres : (downloadLoop blk.End blk.Begin s).result with
      | starved =>
        rw [workerLoop_cons_starved blk s rest retries hg hres]
        simp
      | success =>
        rw [workerLoop_cons_ok blk s rest retries hg hres]
        simp
      | failure =>
        by_cases hx : MaxRetries ≤ retries + 1
        · rw [workerLoop_cons_last_fail blk s rest retries hg hx hres]
          simp
        · rw [workerLoop_cons_retry blk s rest retries hg hx hres]
          dsimp only
          simp only [List.length_cons, List.range'_succ, List.cons.injEq]
          exact ⟨trivial, ih (retries + 1)⟩
    · rw [workerLoop, if_neg hg]
      simp

/-- When the next `MaxRetries - retries` scripted attempts all fail, the
worker exhausts the bound: it returns permanently failed, having made exactly
that many attempts and emitted one error event per failed attempt. -/
theorem workerLoop_exhaust (blk : Block) :
    ∀ (streams : List (List ReadRes)) (retries : Nat), retries < MaxRetries →
      MaxRetries - retries ≤ streams.length →
      (∀ s ∈ streams.take (MaxRetries - retries),
        (downloadLoop blk.End blk.Begin s).result = .failure) →
      (workerLoop blk retries streams).result = .failed
      ∧ (workerLoop blk retries streams).errEvents = MaxRetries - retries
      ∧ (workerLoop blk retries streams).attempts = MaxRetries - retries := by
  intro streams
  induction streams with
  | nil =>
    intro retries hg hlen _
    simp only [List.length_nil] at hlen
    omega
  | cons s rest ih =>
    intro retries hg hlen hfail
    have hs : s ∈ (s :: rest).take (MaxRetries - retries) := by
      obtain ⟨k, hk'⟩ : ∃ k, MaxRetries - retries = k + 1 := ⟨MaxRetries - retries - 1, by omega⟩
      rw [hk', List.take_succ_cons]
      exact List.mem_cons_self s _
    have hres := hfail s hs
    by_cases hx : MaxRetries ≤ retries + 1
    · rw [workerLoop_cons_last_fail blk s rest retries hg hx hres]
      refine ⟨rfl, ?_, ?_⟩ <;> dsimp only <;> omega
    · rw [workerLoop_cons_retry blk s rest retries hg hx hres]
      have hlen' : MaxRetries - (retries + 1) ≤ rest.length := by
        simp only [List.length_cons] at hlen
        omega
      have hfail' : ∀ s' ∈ rest.take (MaxRetries - (retries + 1)),
          (downloadLoop blk.End blk.Begin s').result = .failure := by
        intro s' hs'
        apply hfail
        obtain ⟨k, hk'⟩ : ∃ k, MaxRetries - retries = k + 1 := ⟨MaxRetries - retries - 1, by omega⟩
        rw [hk', List.take_succ_cons]
        refine List.mem_cons_of_mem s ?_
        have : MaxRetries - (retries + 1) = k := by omega
        rwa [this] at hs'
      obtain ⟨ih1, ih2, ih3⟩ := ih (retries + 1) (by omega) hlen' hfail'
      refine ⟨ih1, ?_, ?_⟩ <;> dsimp only <;> omega

/-! ## Lemmas about a whole download cycle -/

theorem downloadRun_workers_getD (blocks : List Block)
    (streams : List (List (List ReadRes))) (j : Nat) (d : WorkerOut) :
    (downloadRun blocks streams).workers.getD j d
      = if j < blocks.length then
          workerLoop (blocks.getD j default) 0 (streams.getD j []) else d := by
  unfold downloadRun
  by_cases hj : j < blocks.length
  · rw [if_pos hj, List.getD_eq_getElem?_getD, List.getElem?_map, List.getElem?_range hj]
    rfl
  · rw [if_neg hj, List.getD_eq_getElem?_getD]
    have : ((List.range blocks.length).map fun i =>
        workerLoop (blocks.getD i default) 0 (streams.getD i []))[j]? = none := by
      rw [List.getElem?_eq_none]
      simpa using Nat.le_of_not_lt hj
    rw [this]
    rfl

/-! ## Claim C3 -/

/-- Claim C3: bounded retry with growing backoff.  A worker makes at most
`MaxRetries` attempts; its backoff sleeps are `1s, 2s, ...` — the k-th sleep
is proportional to the attempt count; when the first `MaxRetries` attempts all
fail it returns permanently failed having emitted an error event per failed
attempt (in particular one on exhaustion); and a worker's outcome in a cycle
depends only on its own block and its own scripted responses — a permanently
failing block never cancels a sibling. -/
theorem worker_bounded_retry (blk : Block) (streams : List (List ReadRes)) :
    (workerLoop blk 0 streams).attempts ≤ MaxRetries
    ∧ (workerLoop blk 0 streams).sleeps
        = List.range' 1 (workerLoop blk 0 streams).sleeps.length
    ∧ (MaxRetries ≤ streams.length →
        (∀ s ∈ streams.take MaxRetries,
          (downloadLoop blk.End blk.Begin s).result = .failure) →
        (workerLoop blk 0 streams).result = .failed
        ∧ (workerLoop blk 0 streams).errEvents = MaxRetries
        ∧ (workerLoop blk 0 streams).attempts = MaxRetries)
    ∧ (∀ (blocks : List Block) (streams1 streams2 : List (List (List ReadRes))) (j : Nat),
        streams1.getD j [] = streams2.getD j [] →
        (downloadRun blocks streams1).workers.getD j default
          = (downloadRun blocks streams2).workers.getD j default) := by
  refine ⟨by simpa using workerLoop_attempts_le blk streams 0,
    by simpa using workerLoop_sleeps_ramp blk streams 0, ?_, ?_⟩
  · intro hlen hfail
    have h := workerLoop_exhaust blk streams 0 (by decide)
      (by simpa using hlen) (by simpa using hfail)
    simpa using h
  · intro blocks streams1 streams2 j hsame
    rw [downloadRun_workers_getD, downloadRun_workers_getD, hsame]

/-- Claim C3 witness: a block whose three scripted attempts all fail ends
permanently failed after exactly `MaxRetries = 3` attempts. -/
theorem worker_bounded_retry_witness :
    (workerLoop ⟨0, 9⟩ 0 (List.replicate 3 [⟨0, some ReadEnd.err⟩])).result = WResult.failed
    ∧ (workerLoop ⟨0, 9⟩ 0 (List.replicate 3 [⟨0, some ReadEnd.err⟩])).attempts = 3 := by
  have h := (worker_bounded_retry ⟨0, 9⟩ (List.replicate 3 [⟨0, some ReadEnd.err⟩])).2.2.1
    (by decide) (by decide)
  exact ⟨h.1, h.2.2⟩

/-! ## Claim C5 -/

/-- Claim C5: oversized-response truncation.  For a ranged block
(`endPos ≠ -1`): no write of the attempt ever reaches an offset past the
block's end; an attempt in which the clip fired returns success (not an
error); and when the very first chunk would overrun, the attempt ends at once
having written exactly the remaining needed length `endPos - b + 1` (nothing,
if no bytes remained). -/
theorem truncation_safe (endPos b : Int) (s : List ReadRes) (hne : endPos ≠ -1) :
    (∀ w ∈ (downloadLoop endPos b s).writes, w.1 + w.2 - 1 ≤ endPos)
    ∧ ((downloadLoop endPos b s).truncated = true →
        (downloadLoop endPos b s).result = .success)
    ∧ (∀ (r : ReadRes) (rest : List ReadRes), s = r :: rest →
        endPos - b + 1 < (r.n : Int) →
        (downloadLoop endPos b s).result = .success
        ∧ (downloadLoop endPos b s).writes
            = if 0 < endPos - b + 1 then [(b, endPos - b + 1)] else []) := by
  obtain ⟨h1, h2, h3, h4⟩ := downloadLoop_facts endPos s b
  refine ⟨h2 hne, h3, ?_⟩
  rintro r rest rfl hover
  have hc : endPos ≠ -1 ∧ endPos - b + 1 < (r.n : Int) := ⟨hne, hover⟩
  rw [downloadLoop_cons_trunc endPos b r rest hc]
  by_cases hp : 0 < endPos - b + 1
  · rw [if_pos hp, if_pos hp]
    exact ⟨rfl, rfl⟩
  · rw [if_neg hp, if_neg hp]
    exact ⟨rfl, rfl⟩

/-- Claim C5 witness: a 20-byte chunk against the 10-byte block `[0, 9]` is
clipped to 10 bytes and the attempt succeeds. -/
theorem truncation_safe_witness :
    (downloadLoop 9 0 [⟨20, none⟩]).result = AttemptResult.success
    ∧ (downloadLoop 9 0 [⟨20, none⟩]).writes = [(0, 10)] := by
  have h := (truncation_safe 9 0 [⟨20, none⟩] (by decide)).2.2 ⟨20, none⟩ [] rfl (by decide)
  refine ⟨h.1, ?_⟩
  rw [h.2]
  decide

/-! ## Claim C9 -/

/-- Claim C9: retried bytes are double-counted by the core.  Concrete run with
`S = 16`: block 0's first attempt writes 1 byte and then fails; the retry
rebuilds its Range header from the unchanged stored begin (`bytes=0-0` both
times), re-downloads the byte and adds it to the counter again, so the run
finishes with `Downloaded = 17 > 16 = S`. -/
theorem retry_double_count :
    ((downloadRun (startPlan [] 16 16)
        ([[⟨1, some ReadEnd.err⟩], [⟨1, some ReadEnd.eof⟩]]
          :: List.replicate 15 [[⟨1, some ReadEnd.eof⟩]])).workers.map
      WorkerOut.delta).sum = 17
    ∧ ((startPlan [] 16 16).map blockLen).sum = 16
    ∧ (16 : Int) < 17
    ∧ ((downloadRun (startPlan [] 16 16)
        ([[⟨1, some ReadEnd.err⟩], [⟨1, some ReadEnd.eof⟩]]
          :: List.replicate 15 [[⟨1, some ReadEnd.eof⟩]])).workers.getD 0 default).ranges
      = [some (0, 0), some (0, 0)] := by
  decide

/-! ## Claim C2 -/

/-- Claim C2 counterexample: a cycle in which block 0 permanently fails (all
three attempts error) still emits `finish` after the barrier — the claim's
"the event emitted is failed, not finish" is false for the core, which has no
failed terminal event at all. -/
theorem failed_block_still_finish :
    (∃ w ∈ (downloadRun (startPlan [] 16 16)
        (List.replicate 3 [⟨0, some ReadEnd.err⟩]
          :: List.replicate 15 [[⟨1, some ReadEnd.eof⟩]])).workers,
      w.result = WResult.failed)
    ∧ (downloadRun (startPlan [] 16 16)
        (List.replicate 3 [⟨0, some ReadEnd.err⟩]
          :: List.replicate 15 [[⟨1, some ReadEnd.eof⟩]])).terminal = Event.finish
    ∧ (downloadRun (startPlan [] 16 16)
        (List.replicate 3 [⟨0, some ReadEnd.err⟩]
          :: List.replicate 15 [[⟨1, some ReadEnd.eof⟩]])).terminal ≠ Event.failed := by
  decide

/-- Claim C2 (amended): exactly one terminal-trio event is emitted per cycle,
strictly after every worker has returned (all per-block error events precede
it), but in the core that event is always `finish` — a permanently failed
block does not change it to `failed`. -/
theorem terminal_event_unique (blocks : List Block) (streams : List (List (List ReadRes))) :
    (eventTrace blocks streams).countP (fun e => isTerminal e) = 1
    ∧ (eventTrace blocks streams).getLast? = some Event.finish
    ∧ ∀ e ∈ (eventTrace blocks streams).dropLast, e = Event.blockErr := by
  have hmem : ∀ e ∈ ((downloadRun blocks streams).workers.map fun w =>
      List.replicate w.errEvents Event.blockErr).flatten, e = Event.blockErr := by
    intro e he
    obtain ⟨l, hl, hel⟩ := List.mem_flatten.mp he
    obtain ⟨w, _, rfl⟩ := List.mem_map.mp hl
    exact List.eq_of_mem_replicate hel
  have hterm : (downloadRun blocks streams).terminal = Event.finish := rfl
  unfold eventTrace
  rw [hterm]
  refine ⟨?_, ?_, ?_⟩
  · rw [List.countP_append]
    have h0 : (((downloadRun blocks streams).workers.map fun w =>
        List.replicate w.errEvents Event.blockErr).flatten).countP
          (fun e => isTerminal e) = 0 := by
      rw [List.countP_eq_zero]
      intro e he
      rw [hmem e he]
      simp [isTerminal]
    rw [h0]
    rfl
  · exact List.getLast?_concat _
  · intro e he
    rw [List.dropLast_concat] at he
    exact hmem e he

/-! ## Claim C4 -/

/-- Claim C4 code evaluation at the failing input: block `[0, 99]`, first
attempt writes 50 bytes then hits a transient error.  The core's retry sends
`Range: bytes=0-99` again (the stored begin was never advanced), rewrites the
first 50 bytes and counts 150 bytes for a 100-byte block; the part_005
variant, by contrast, leaves its stored begin at 50 after the same partial
attempt, ready to resume from byte 50 as the claim describes. -/
theorem retry_range_reset_eval :
    (workerLoop ⟨0, 99⟩ 0 [[⟨50, some ReadEnd.err⟩], [⟨100, some ReadEnd.eof⟩]]).ranges
      = [some (0, 99), some (0, 99)]
    ∧ (workerLoop ⟨0, 99⟩ 0 [[⟨50, some ReadEnd.err⟩], [⟨100, some ReadEnd.eof⟩]]).writes
      = [(0, 50), (0, 100)]
    ∧ (workerLoop ⟨0, 99⟩ 0 [[⟨50, some ReadEnd.err⟩], [⟨100, some ReadEnd.eof⟩]]).delta = 150
    ∧ blockLen ⟨0, 99⟩ = 100
    ∧ some ((0 : Int), (99 : Int)) ≠ some ((50 : Int), (99 : Int))
    ∧ (downloadBlock5 99 0 [⟨false, ⟨50, some ReadEnd.err⟩⟩]).storedBegin = 50 := by
  decide

/-! ## Claim C6 -/

theorem downloadBlock5_paused (endPos sb : Int) (st : Step5) (rest : List Step5)
    (hp : st.paused = true) :
    downloadBlock5 endPos sb (st :: rest)
      = { storedBegin := sb, writes := [], delta := 0, reads := 0, result := .pausedHalt } := by
  rw [downloadBlock5, if_pos hp]

/-- The stored begin after any part_005 attempt equals its entry value plus
the total bytes written: the block always records the resumable position. -/
theorem downloadBlock5_storedBegin (endPos : Int) :
    ∀ (steps : List Step5) (sb : Int),
      (downloadBlock5 endPos sb steps).storedBegin
        = sb + sumWrites (downloadBlock5 endPos sb steps).writes := by
  intro steps
  induction steps with
  | nil => intro sb; simp [downloadBlock5, sumWrites]
  | cons st rest ih =>
    intro sb
    obtain ⟨p, n, e⟩ := st
    cases p with
    | true =>
      rw [downloadBlock5_paused endPos sb ⟨true, ⟨n, e⟩⟩ rest rfl]
      simp [sumWrites]
    | false =>
      rw [downloadBlock5, if_neg (by simp)]
      dsimp only
      by_cases hc : endPos ≠ -1 ∧ endPos + 1 - sb < (n : Int)
      · rw [if_pos hc]
        simp [sumWrites]
      · rw [if_neg hc]
        cases e with
        | none =>
          dsimp only
          rw [ih (sb + (n : Int))]
          simp [sumWrites]
          ring
        | some ee => cases ee <;> simp [sumWrites]

/-- If a part_005 attempt returned because of the pause flag, then it stopped
at the first iteration whose observed flag was set: it fetched exactly the
chunks before that point and no more. -/
theorem downloadBlock5_halt_at (endPos : Int) :
    ∀ (steps : List Step5) (sb : Int),
      (downloadBlock5 endPos sb steps).result = .pausedHalt →
      (downloadBlock5 endPos sb steps).reads < steps.length
      ∧ (∀ st ∈ steps.take (downloadBlock5 endPos sb steps).reads, st.paused = false)
      ∧ (steps.getD (downloadBlock5 endPos sb steps).reads default).paused = true := by
  intro steps
  induction steps with
  | nil => intro sb h; simp [downloadBlock5] at h
  | cons st rest ih =>
    intro sb h
    obtain ⟨p, n, e⟩ := st
    cases p with
    | true =>
      rw [downloadBlock5_paused endPos sb ⟨true, ⟨n, e⟩⟩ rest rfl]
      refine ⟨by simp, by simp, rfl⟩
    | false =>
      rw [downloadBlock5, if_neg (by simp)] at h ⊢
      dsimp only at h ⊢
      by_cases hc : endPos ≠ -1 ∧ endPos + 1 - sb < (n : Int)
      · rw [if_pos hc] at h ⊢
        cases h
      · rw [if_neg hc] at h ⊢
        cases e with
        | none =>
          dsimp only at h ⊢
          obtain ⟨ih1, ih2, ih3⟩ := ih (sb + (n : Int)) h
          have hcomm : 1 + (downloadBlock5 endPos (sb + (n : Int)) rest).reads
              = (downloadBlock5 endPos (sb + (n : Int)) rest).reads + 1 :=
            Nat.add_comm 1 _
          rw [hcomm]
          refine ⟨by simp only [List.length_cons]; omega, ?_, ?_⟩
          · intro st' hst'
            rw [List.take_succ_cons] at hst'
            rcases List.mem_cons.mp hst' with rfl | hst''
            · rfl
            · exact ih2 st' hst''
          · rw [List.getD_cons_succ]
            exact ih3
        | some ee => cases ee <;> cases h

/-- Claim C6: cooperative pause.  `Pause` sets the cancellation flag; a worker
checks the flag before every read and, when it is set, returns immediately —
without error, without fetching, leaving the stored begin untouched; across
any attempt the stored begin equals the entry begin plus the bytes written
(the correctly resumable position); and a pause-terminated attempt consumed
exactly the chunks read before the flag was first observed set. -/
theorem pause_cooperative :
    (∀ d : DLState, (Pause d).paused = true)
    ∧ (∀ (endPos sb : Int) (st : Step5) (rest : List Step5), st.paused = true →
        downloadBlock5 endPos sb (st :: rest)
          = { storedBegin := sb, writes := [], delta := 0, reads := 0,
              result := .pausedHalt })
    ∧ (∀ (endPos sb : Int) (steps : List Step5),
        (downloadBlock5 endPos sb steps).storedBegin
          = sb + sumWrites (downloadBlock5 endPos sb steps).writes)
    ∧ (∀ (endPos sb : Int) (steps : List Step5),
        (downloadBlock5 endPos sb steps).result = .pausedHalt →
        (downloadBlock5 endPos sb steps).reads < steps.length
        ∧ (∀ st ∈ steps.take (downloadBlock5 endPos sb steps).reads, st.paused = false)
        ∧ (steps.getD (downloadBlock5 endPos sb steps).reads default).paused = true) := by
  refine ⟨fun d => rfl, ?_, ?_, ?_⟩
  · intro endPos sb st rest hp
    exact downloadBlock5_paused endPos sb st rest hp
  · intro endPos sb steps
    exact downloadBlock5_storedBegin endPos steps sb
  · intro endPos sb steps h
    exact downloadBlock5_halt_at endPos steps sb h

/-- Claim C6 witness: a worker that reads one 4-byte chunk and then observes
the flag halts with one read, stored begin 4, and the pause result. -/
theorem pause_cooperative_witness :
    (Pause ⟨false⟩).paused = true
    ∧ (downloadBlock5 9 0 [⟨false, ⟨4, none⟩⟩, ⟨true, ⟨0, none⟩⟩]).reads < 2
    ∧ (downloadBlock5 9 0 [⟨false, ⟨4, none⟩⟩, ⟨true, ⟨0, none⟩⟩]).storedBegin
      = 0 + sumWrites (downloadBlock5 9 0 [⟨false, ⟨4, none⟩⟩, ⟨true, ⟨0, none⟩⟩]).writes := by
  refine ⟨pause_cooperative.1 ⟨false⟩, ?_, pause_cooperative.2.2.1 9 0 _⟩
  exact (pause_cooperative.2.2.2 9 0 [⟨false, ⟨4, none⟩⟩, ⟨true, ⟨0, none⟩⟩] (by decide)).1

/-! ## Claim C7 -/

/-- Claim C7: construction and size discovery.  With a positive known size,
construction succeeds with that size and no HEAD request is made; with a
non-positive size the HEAD request is made and: a failed HEAD yields a
synchronous error (no task), a non-positive discovered content-length
(including Go's `-1` for "absent") yields a synchronous error (no task), and a
positive content-length becomes the task's size. -/
theorem construction_size_discovery (url : String) (head : HeadResult) (size : Int) :
    (0 < size →
      NewFileDownloader url head size = .ok { url := url, size := size, downloaded := 0 }
      ∧ headRequested size = false)
    ∧ (size ≤ 0 →
        headRequested size = true
        ∧ (head = .failed → NewFileDownloader url head size = .error "head request failed")
        ∧ (∀ cl, head = .ok cl →
            (cl ≤ 0 → NewFileDownloader url head size
                = .error "HTTP HEAD response without Content-Length")
            ∧ (0 < cl → NewFileDownloader url head size
                = .ok { url := url, size := cl, downloaded := 0 }))) := by
  constructor
  · intro hpos
    constructor
    · unfold NewFileDownloader
      rw [if_neg (by omega)]
      dsimp only
      rw [if_neg (by omega)]
    · simp [headRequested]
      omega
  · intro hle
    refine ⟨by simp [headRequested]; omega, ?_, ?_⟩
    · intro hh
      subst hh
      unfold NewFileDownloader
      rw [if_pos hle]
    · intro cl hh
      subst hh
      constructor
      · intro hcl
        unfold NewFileDownloader
        rw [if_pos hle]
        dsimp only
        rw [if_pos hcl]
      · intro hcl
        unfold NewFileDownloader
        rw [if_pos hle]
        dsimp only
        rw [if_neg (by omega)]

/-- Claim C7 witness: a positive known size bypasses HEAD; a non-positive size
with an absent content-length (`-1`) fails construction. -/
theorem construction_size_discovery_witness :
    NewFileDownloader "u" HeadResult.failed 7 = .ok { url := "u", size := 7, downloaded := 0 }
    ∧ NewFileDownloader "u" (HeadResult.ok (-1)) 0
      = .error "HTTP HEAD response without Content-Length" := by
  refine ⟨((construction_size_discovery "u" HeadResult.failed 7).1 (by decide)).1, ?_⟩
  exact ((((construction_size_discovery "u" (HeadResult.ok (-1)) 0).2
    (by decide)).2.2 (-1) rfl).1 (by decide))

/-! ## Claim C10 -/

theorem startPlan_pos (prev : List Block) (S : Int) (T : Nat) (hS : 0 < S) :
    startPlan prev S T
      = modifyEnd (prev ++ (List.range T).map (rawBlock (S / (T : Int)))) (T - 1) (S - 1) := by
  unfold startPlan
  rw [if_neg (by omega)]

/-- Claim C10 counterexample: with `S = 17` a second `Start` leaves 32 blocks,
but the appended batch misses byte 16 (the remainder): the tail correction
writes to index `MaxThread - 1 = 15`, which lies in the first batch, so byte 16
is scheduled once (first batch) and not a second time.  This refutes the
clause "schedules every byte range for download a second time". -/
theorem second_start_misses_remainder :
    (startPlan (startPlan [] 17 16) 17 16).length = 32
    ∧ (∃ blk ∈ (startPlan (startPlan [] 17 16) 17 16).take 16,
        blk.Begin ≤ 16 ∧ (16 : Int) ≤ blk.End)
    ∧ ¬ (∃ blk ∈ (startPlan (startPlan [] 17 16) 17 16).drop 16,
        blk.Begin ≤ 16 ∧ (16 : Int) ≤ blk.End) := by
  decide

/-- Claim C10 (amended): for every `Size > 0`, a second `Start` appends
`MaxThread` new blocks without clearing the list, leaving `2 * MaxThread`
blocks; the appended batch is the *uncorrected* raw partition — it covers
exactly `[0, (S / MaxThread) * MaxThread - 1]`, so the division remainder is
scheduled a second time only when `MaxThread` divides `S` (the tail-end
correction targets index `MaxThread - 1`, inside the first batch). -/
theorem start_appends_plan (S : Int) (hS : 0 < S) :
    (startPlan (startPlan [] S MaxThread) S MaxThread).length = 2 * MaxThread
    ∧ startPlan (startPlan [] S MaxThread) S MaxThread
        = startPlan [] S MaxThread
          ++ (List.range MaxThread).map (rawBlock (S / (MaxThread : Int)))
    ∧ (∀ x : Int,
        (∃ blk ∈ (List.range MaxThread).map (rawBlock (S / (MaxThread : Int))),
            blk.Begin ≤ x ∧ x ≤ blk.End)
          ↔ 0 ≤ x ∧ x < S / (MaxThread : Int) * (MaxThread : Int)) := by
  have hT : 0 < MaxThread := by decide
  have hlen1 : (startPlan [] S MaxThread).length = MaxThread := startPlan_length S MaxThread hS hT
  have hfix : modifyEnd (startPlan [] S MaxThread) (MaxThread - 1) (S - 1)
      = startPlan [] S MaxThread := by
    rw [startPlan_decomp S MaxThread hS hT]
    rw [modifyEnd_append_idx _ _ _ _ _ (by simp)]
  have happend : startPlan (startPlan [] S MaxThread) S MaxThread
      = startPlan [] S MaxThread
        ++ (List.range MaxThread).map (rawBlock (S / (MaxThread : Int))) := by
    rw [startPlan_pos (startPlan [] S MaxThread) S MaxThread hS]
    rw [modifyEnd_append_lt _ _ _ _ (by rw [hlen1]; decide)]
    rw [hfix]
  have hnonneg : ∀ blk ∈ (List.range MaxThread).map (rawBlock (S / (MaxThread : Int))),
      blk.Begin ≤ blk.End + 1 := by
    intro blk hm
    obtain ⟨i, _, rfl⟩ := List.mem_map.mp hm
    have := plan_blockSize_nonneg S MaxThread hS hT
    simp only [rawBlock]
    omega
  have hcontig : contiguousFrom 0 ((List.range MaxThread).map (rawBlock (S / (MaxThread : Int))))
      = true := by
    have h := contiguous_rawBlocks (S / (MaxThread : Int)) MaxThread 0
    simp only [Nat.cast_zero, mul_zero] at h
    rwa [List.range_eq_range']
  have hnext : nextAfter 0 ((List.range MaxThread).map (rawBlock (S / (MaxThread : Int))))
      = S / (MaxThread : Int) * (MaxThread : Int) := by
    have h := nextAfter_rawBlocks (S / (MaxThread : Int)) MaxThread 0
    simp only [Nat.cast_zero, mul_zero, zero_add] at h
    rw [List.range_eq_range', h]
  refine ⟨?_, happend, ?_⟩
  · rw [happend]
    simp [hlen1]
    omega
  · intro x
    have h := cover_of_contiguous _ 0 hcontig hnonneg x
    rw [hnext] at h
    exact h

/-- Claim C10 witness: the amended append theorem at `S = 32` — a second
`Start` leaves 32 blocks. -/
theorem start_appends_plan_witness :
    (startPlan (startPlan [] 32 MaxThread) 32 MaxThread).length = 2 * MaxThread := by
  exact (start_appends_plan 32 (by decide)).1

/-! ## Claim C8 -/

theorem getD_map_range {β : Type} (n : Nat) (f : Nat → β) (j : Nat) (d : β) :
    ((List.range n).map f).getD j d = if j < n then f j else d := by
  by_cases hj : j < n
  · rw [if_pos hj, List.getD_eq_getElem?_getD, List.getElem?_map, List.getElem?_range hj]
    rfl
  · rw [if_neg hj, List.getD_eq_getElem?_getD]
    have : ((List.range n).map f)[j]? = none := by
      rw [List.getElem?_eq_none]
      simpa using Nat.le_of_not_lt hj
    rw [this]
    rfl

theorem map_getD_range {α β : Type} (l : List α) (f : α → β) (d : α) :
    (List.range l.length).map (fun i => f (l.getD i d)) = l.map f := by
  induction l with
  | nil => rfl
  | cons x xs ih =>
    rw [List.length_cons, List.range_succ_eq_map]
    simp only [List.map_cons, List.map_map]
    exact congrArg (f x :: ·) ih

theorem head?_scanl {α β : Type} (f : β → α → β) (a : β) (l : List α) :
    (List.scanl f a l).head? = some a := by
  cases l <;> simp [List.scanl]

/-- Partial sums of non-negative increments are monotone: whatever serialized
order the locked counter additions take, the counter never decreases. -/
theorem scanl_chain_le :
    ∀ (incs : List Int) (a : Int), (∀ x ∈ incs, 0 ≤ x) →
      List.Chain' (· ≤ ·) (List.scanl (· + ·) a incs) := by
  intro incs
  induction incs with
  | nil => intro a _; simp
  | cons x xs ih =>
    intro a h
    rw [List.scanl_cons]
    refine List.chain'_cons'.mpr ⟨?_, ?_⟩
    · intro y hy
      change y ∈ (List.scanl (· + ·) (a + x) xs).head? at hy
      rw [head?_scanl] at hy
      have hx := h x (List.mem_cons_self x xs)
      simp only [Option.mem_def, Option.some.injEq] at hy
      omega
    · exact ih (a + x) fun z hz => h z (List.mem_cons_of_mem x hz)

theorem workerLoop_writes_pos (blk : Block) :
    ∀ (streams : List (List ReadRes)) (retries : Nat),
      ∀ w ∈ (workerLoop blk retries streams).writes, 0 < w.2 := by
  intro streams
  induction streams with
  | nil => intro retries w hw; simp [workerLoop] at hw
  | cons s rest ih =>
    intro retries w hw
    by_cases hg : retries < MaxRetries
    · cases hres : (downloadLoop blk.End blk.Begin s).result with
      | starved =>
        rw [workerLoop_cons_starved blk s rest retries hg hres] at hw
        exact (downloadLoop_facts blk.End s blk.Begin).1 w hw
      | success =>
        rw [workerLoop_cons_ok blk s rest retries hg hres] at hw
        exact (downloadLoop_facts blk.End s blk.Begin).1 w hw
      | failure =>
        by_cases hx : MaxRetries ≤ retries + 1
        · rw [workerLoop_cons_last_fail blk s rest retries hg hx hres] at hw
          exact (downloadLoop_facts blk.End s blk.Begin).1 w hw
        · rw [workerLoop_cons_retry blk s rest retries hg hx hres] at hw
          dsimp only at hw
          rcases List.mem_append.mp hw with hw1 | hw2
          · exact (downloadLoop_facts blk.End s blk.Begin).1 w hw1
          · exact ih (retries + 1) w hw2
    · rw [workerLoop, if_neg hg] at hw
      simp at hw

theorem downloadRun_writes_pos (blocks : List Block)
    (streams : List (List (List ReadRes))) :
    ∀ w ∈ allWrites (downloadRun blocks streams), 0 < w.2 := by
  intro w hw
  unfold allWrites downloadRun at hw
  dsimp only at hw
  obtain ⟨l, hl, hwl⟩ := List.mem_flatten.mp hw
  obtain ⟨wo, hwo, rfl⟩ := List.mem_map.mp hl
  obtain ⟨i, _, rfl⟩ := List.mem_map.mp hwo
  exact workerLoop_writes_pos _ _ _ w hwl

/-- Claim C8 counterexample: `S = 1 < MaxThread`.  Every response is
well-behaved — the single ranged block `[0, 0]` receives exactly its range
(`servesB` holds) and every open-ended sentinel block receives the full
1-byte body — there are no retries, yet `Downloaded` at the finish event is
16, not `S = 1`.  This refutes the clause "equals S at the moment the finish
event fires". -/
theorem small_file_downloaded_mismatch :
    ((downloadRun (startPlan [] 1 16)
        (List.replicate 16 [[⟨1, some ReadEnd.eof⟩]])).workers.map WorkerOut.delta).sum = 16
    ∧ (16 : Int) ≠ 1
    ∧ servesB 0 0 [⟨1, some ReadEnd.eof⟩] = true := by
  decide

/-- Claim C8 (amended): every mutation of the shared counter adds a positive
amount (each under the write lock), so in any serialized order of the locked
additions the counter trace is monotonically non-decreasing; and provided
`S ≥ MaxThread` (so no open-ended sentinel blocks are planned), a run in which
each block's single attempt is served exactly ends with `Downloaded = S` at
the finish event.  For `S < MaxThread` the sentinel blocks re-download the
full body and the final count exceeds `S`. -/
theorem downloaded_monotone_and_complete :
    (∀ (blocks : List Block) (streams : List (List (List ReadRes)))
        (order : List (Int × Int)),
        order.Perm (allWrites (downloadRun blocks streams)) →
        List.Chain' (· ≤ ·) (List.scanl (· + ·) 0 (order.map Prod.snd)))
    ∧ (∀ (S : Int) (sI : Nat → List ReadRes),
        (MaxThread : Int) ≤ S →
        (∀ i, i < MaxThread →
          servesB ((startPlan [] S MaxThread).getD i default).End
            ((startPlan [] S MaxThread).getD i default).Begin (sI i) = true) →
        ((downloadRun (startPlan [] S MaxThread)
            ((List.range MaxThread).map fun i => [sI i])).workers.map
          WorkerOut.delta).sum = S) := by
  constructor
  · intro blocks streams order hperm
    apply scanl_chain_le
    intro x hx
    obtain ⟨w, hw, rfl⟩ := List.mem_map.mp hx
    have hw' : w ∈ allWrites (downloadRun blocks streams) := hperm.mem_iff.mp hw
    exact le_of_lt (downloadRun_writes_pos blocks streams w hw')
  · intro S sI hSge hserves
    have hT : 0 < MaxThread := by decide
    have hS : 0 < S := by
      have hTi : (0 : Int) < (MaxThread : Int) := by exact_mod_cast hT
      omega
    have hlen : (startPlan [] S MaxThread).length = MaxThread :=
      startPlan_length S MaxThread hS hT
    unfold downloadRun
    dsimp only
    rw [List.map_map, hlen]
    have hpt : ∀ i ∈ List.range MaxThread,
        (WorkerOut.delta ∘ fun i =>
          workerLoop ((startPlan [] S MaxThread).getD i default) 0
            (((List.range MaxThread).map fun i => [sI i]).getD i [])) i
        = blockLen ((startPlan [] S MaxThread).getD i default) := by
      intro i hi
      have hilt : i < MaxThread := List.mem_range.mp hi
      have hstream : ((List.range MaxThread).map fun i => [sI i]).getD i [] = [sI i] := by
        rw [getD_map_range MaxThread _ i [], if_pos hilt]
      dsimp only [Function.comp]
      rw [hstream]
      have hsound := servesB_sound ((startPlan [] S MaxThread).getD i default).End (sI i)
        ((startPlan [] S MaxThread).getD i default).Begin (hserves i hilt)
      rw [workerLoop_cons_ok _ (sI i) [] 0 (by decide) hsound.1]
      dsimp only
      rw [hsound.2]
      rfl
    rw [List.map_congr_left hpt]
    rw [show List.range MaxThread = List.range (startPlan [] S MaxThread).length by rw [hlen]]
    rw [map_getD_range]
    exact startPlan_sum S MaxThread hS hT

/-- Claim C8 witness: the amended theorem at `S = 16` with each block served
exactly by one chunk — the run ends with `Downloaded = 16`; and the monotone
part on that same run's writes in program order. -/
theorem downloaded_monotone_and_complete_witness :
    ((downloadRun (startPlan [] 16 MaxThread)
        ((List.range MaxThread).map fun i =>
          [(fun _ : Nat => [(⟨1, some ReadEnd.eof⟩ : ReadRes)]) i])).workers.map
      WorkerOut.delta).sum = 16
    ∧ List.Chain' (· ≤ ·) (List.scanl (· + ·) 0
        ((allWrites (downloadRun (startPlan [] 16 MaxThread)
          (List.replicate 16 [[⟨1, some ReadEnd.eof⟩]]))).map Prod.snd)) := by
  constructor
  · exact downloaded_monotone_and_complete.2 16 (fun _ => [⟨1, some ReadEnd.eof⟩])
      (by norm_num [MaxThread]) (by decide)
  · exact downloaded_monotone_and_complete.1 (startPlan [] 16 MaxThread)
      (List.replicate 16 [[⟨1, some ReadEnd.eof⟩]]) _ (List.Perm.refl _)

end Mget
